import Mathlib

/-
Verification of the refactordoc line-buffer docstring rewriter.

The definitions below are a shallow embedding of `base_doc.py` (class `BaseDoc`)
and `sectiondoc/items/or_definition_item.py` (class `OrDefinitionItem`).
A line of text is a `List Char`; the mutable buffer together with its cursor is
the structure `DocState`.  Python string methods (`strip`, `rstrip`,
`startswith`, `split`, ...) are embedded as functions on `List Char`, and the
few regular expressions of the source are compiled by hand into equivalent
character-level functions, documented at each definition.
-/

-- ---------------------------------------------------------------------------
-- Definitions (shallow embedding of the source)
-- ---------------------------------------------------------------------------

/-- A line of text, as a list of characters (one Python `str` with no newline). -/
abbrev Line := List Char

/-- The characters Python's `str.strip` / `\s` treat as whitespace (ASCII range). -/
def pySpace (c : Char) : Bool :=
  c = ' ' || c = '\t' || c = '\n' || c = '\r' || c = '\u000b' || c = '\u000c'

/-- Python `str.lstrip()`. -/
def lstrip (l : Line) : Line := l.dropWhile pySpace

/-- Python `str.rstrip()`. -/
def rstrip (l : Line) : Line := (l.reverse.dropWhile pySpace).reverse

/-- Python `str.strip()`. -/
def strip (l : Line) : Line := lstrip (rstrip l)

/-- `is_empty(line)` from `base_doc.py`: `not line.strip()`. -/
def is_empty (l : Line) : Bool := l.all pySpace

/-- `get_indent(line)` from `base_doc.py`: the maximal leading run matched by
the regex `\s+`, or the empty string when there is none. -/
def get_indent (l : Line) : Line := l.takeWhile pySpace

/-- The state of a `BaseDoc` object: the mutable list of lines `_docstring`
together with the cursor attribute `index`. -/
structure DocState where
  docstring : List Line
  index : Nat

/-- `BaseDoc.peek(ahead)`: the line at `index + ahead`, or the empty string when
that position is past the end of the buffer (the `IndexError` handler). -/
def peek (s : DocState) (ahead : Nat) : Line := s.docstring.getD (s.index + ahead) []

/-- `BaseDoc.eol`: `index >= len(docstring)`. -/
def eol (s : DocState) : Bool := decide (s.docstring.length ≤ s.index)

/-- `BaseDoc.read()` (named `readLine` here to avoid clashing with the ambient monad-reader function): return the line at `index` and advance `index` by one.
`none` models the `IndexError` (`OutOfRange`) raised when reading at eol. -/
def readLine (s : DocState) : Option (Line × DocState) :=
  if h : s.index < s.docstring.length then
    some (s.docstring.get ⟨s.index, h⟩, { s with index := s.index + 1 })
  else none

/-- `BaseDoc.remove_lines(index, count)`: `del docstring[index:index+count]`. -/
def remove_lines (s : DocState) (a count : Nat) : DocState :=
  { s with docstring := s.docstring.take a ++ s.docstring.drop (a + count) }

/-- One Python `list.insert(i, x)` on a list of lines. -/
def pyInsert (l : List Line) (i : Nat) (x : Line) : List Line :=
  l.take i ++ x :: l.drop i

/-- `BaseDoc.insert_lines(lines, index)`: `for line in reversed(lines):
docstring.insert(index, line)`. -/
def insert_lines (s : DocState) (lines : List Line) (i : Nat) : DocState :=
  { s with docstring := lines.reverse.foldl (fun d line => pyInsert d i line) s.docstring }

/-- `BaseDoc.seek_to_next_non_empty_line()`: advance `index` once per empty line
of `docstring[index:]` until the first non-empty line (or the end). -/
def seek_to_next_non_empty_line (s : DocState) : DocState :=
  { s with index := s.index + ((s.docstring.drop s.index).takeWhile is_empty).length }

/-- The regex character class `[A-Za-z]`. -/
def ascii_letter (c : Char) : Bool :=
  (65 ≤ c.toNat && c.toNat ≤ 90) || (97 ≤ c.toNat && c.toNat ≤ 122)

/-- The regex character class `\w` on ASCII input: `[A-Za-z0-9_]`. -/
def word_char (c : Char) : Bool :=
  ascii_letter c || (48 ≤ c.toNat && c.toNat ≤ 57) || c = '_'

/-- One pass of `re.sub(r'[A-Za-z\\]|\b\s', mark, line)`.  Every match of the
pattern is a single character: a letter, a backslash, or a whitespace character
standing right after a word character (the only way `\b` can hold immediately
before `\s`).  `prev` is the character preceding the current position in the
original string (`none` at the start of the line). -/
def sub_underline (mark : Char) : Option Char → Line → Line
  | _, [] => []
  | prev, c :: rest =>
    (if ascii_letter c || c = '\\' then mark
     else if pySpace c && prev.elim false word_char then mark
     else c) :: sub_underline mark (some c) rest

/-- `re.sub(r'[A-Za-z\\]|\b\s', mark, striped_header)` from `is_section`. -/
def expected_underline (mark : Char) (l : Line) : Line := sub_underline mark none l

/-- `re.match(r'\s*\S+\s*\Z', line)` succeeds exactly when the line consists of
a single non-whitespace run, possibly surrounded by whitespace. -/
def single_token (l : Line) : Bool :=
  !(strip l).isEmpty && (strip l).all (fun c => !pySpace c)

/-- `BaseDoc.is_section()`: `some (strip header)` when the pair of lines at the
cursor forms a section header with its underline, `none` (Python `False`)
otherwise.  Reading happens only through `peek`, so the state is untouched. -/
def is_section (s : DocState) : Option Line :=
  if eol s then none
  else
    let header := peek s 0
    let line2 := peek s 1
    if single_token line2 then
      if rstrip line2 = expected_underline '-' (rstrip header) ∨
         rstrip line2 = expected_underline '=' (rstrip header) then
        some (strip header)
      else none
    else none

/-- First termination test of the `get_next_block` loop:
`is_empty(peek_0) and (not peek_1.startswith(indent))`. -/
def stop_blank (indent x p1 : Line) : Bool :=
  is_empty x && !(indent.isPrefixOf p1)

/-- Second termination test of the `get_next_block` loop:
`(not is_empty(peek_0)) and (not peek_0.startswith(indent))`. -/
def stop_dedent (indent x : Line) : Bool :=
  !(is_empty x) && !(indent.isPrefixOf x)

/-- The `while (not self.eol)` loop of `get_next_block`, with an explicit fuel
counter (the caller passes enough fuel for the loop to run to its `break`).
Each iteration peeks at the next two lines, stops on the block-termination
conditions of the source, and otherwise consumes one line through `read`,
appending its trailing-whitespace-stripped form to the collected block. -/
def block_loop : Nat → Line → DocState → List Line → DocState × List Line
  | 0, _, s, acc => (s, acc)
  | n + 1, indent, s, acc =>
    if eol s then (s, acc)
    else
      if stop_blank indent (peek s 0) (peek s 1) then (s, acc)
      else if stop_dedent indent (peek s 0) then (s, acc)
      else
        match readLine s with
        | some (line, s1) => block_loop n indent s1 (acc ++ [rstrip line])
        | none => (s, acc)

/-- `BaseDoc.get_next_block()`: read the field header, scan the continuation
lines, delete the collected span from the buffer (`remove_lines(start,
len(field))`) and reset `index` to the starting position.  `none` models the
`IndexError` of `self.read()` when called at eol. -/
def get_next_block (s : DocState) : Option (List Line × DocState) :=
  match readLine s with
  | none => none
  | some (field_header, s1) =>
    let indent := get_indent field_header ++ [' ']
    let r := block_loop (s.docstring.length - s1.index) indent s1 [field_header]
    some (r.2, { remove_lines r.1 s.index r.2.length with index := s.index })

/-- The continuation rule of the specification, as a direct recursion over the
list of lines following the header: a blank line continues the block only if
the line after it starts with the body indent, a non-blank line continues only
if it itself starts with the body indent, and every continuation line is
appended with its trailing whitespace stripped. -/
def block_span (indent : Line) : List Line → List Line
  | [] => []
  | x :: rest =>
    if stop_blank indent x (rest.headD []) then []
    else if stop_dedent indent x then []
    else rstrip x :: block_span indent rest

/-- The apostrophe character, written by code point to keep source plain. -/
def quote_char : Char := Char.ofNat 39

/-- CPython `repr` escaping of one character, for the printable-ASCII strings a
docstring header can contain (backslash, quote, tab and line breaks escaped,
every other character unchanged). -/
def py_repr_char (c : Char) : Line :=
  if c = '\\' then ['\\', '\\']
  else if c = quote_char then ['\\', quote_char]
  else if c = '\t' then ['\\', 't']
  else if c = '\n' then ['\\', 'n']
  else if c = '\r' then ['\\', 'r']
  else [c]

/-- Python `repr(header)` for a header string: the escaped text surrounded by
single quotes. -/
def py_repr (l : Line) : Line := quote_char :: (l.map py_repr_char).join ++ [quote_char]

/-- Python `.strip("'")`: remove every leading and trailing apostrophe. -/
def strip_quote_marks (l : Line) : Line :=
  ((l.dropWhile (fun c => c = quote_char)).reverse.dropWhile (fun c => c = quote_char)).reverse

/-- The single description line built by `_refactor_header`:
`indent + '.. rubric:: {0}'.format(repr(header).strip("'"))`. -/
def rubric_line (indent h : Line) : Line :=
  indent ++ (".. rubric:: ").data ++ strip_quote_marks (py_repr h)

/-- The `descriptions` list of `_refactor_header`: the rubric line followed by
one empty line.  The indent is taken from `get_indent(self.peek())` at the
state the method starts in. -/
def header_descriptions (s : DocState) (h : Line) : List Line :=
  [rubric_line (get_indent (peek s 0)) h, []]

/-- `parse`, header branch, first operation: `if is_empty(self.peek(2)):
self.remove_lines(self.index + 2)` (remove the blank line after the header). -/
def stepA (s : DocState) : DocState :=
  if is_empty (peek s 2) then remove_lines s (s.index + 2) 1 else s

/-- `_refactor_header`, operation `self.remove_lines(index, 2)` (drop the
header line and its underline), performed on the state left by `stepA`. -/
def stepB (s : DocState) : DocState :=
  remove_lines (stepA s) (stepA s).index 2

/-- `_refactor_header`, operation `self.insert_lines(descriptions, index)`. -/
def stepC (s : DocState) (h : Line) : DocState :=
  insert_lines (stepB s) (header_descriptions (stepA s) h) (stepA s).index

/-- `_refactor_header`, final operation `self.index += len(descriptions)`. -/
def stepD (s : DocState) (h : Line) : DocState :=
  { stepC s h with index := (stepC s h).index + (header_descriptions (stepA s) h).length }

/-- `parse`, non-header branch, operation `self.index += 1`. -/
def stepNoHeader (s : DocState) : DocState :=
  { s with index := s.index + 1 }

/-- The `while not self.eol` loop of `BaseDoc.parse` run with the default
header dictionary (so every recognized section is refactored by
`_refactor_header`); the returned list records the state after every buffer
or cursor operation the engine performs, in order.  The fuel argument is
always given a value large enough for the loop to reach eol. -/
def parse_trace : Nat → DocState → List DocState
  | 0, _ => []
  | n + 1, s =>
    if eol s then []
    else
      match is_section s with
      | some h => stepA s :: stepB s :: stepC s h :: stepD s h :: parse_trace n (stepD s h)
      | none =>
        stepNoHeader s :: seek_to_next_non_empty_line (stepNoHeader s) ::
          parse_trace n (seek_to_next_non_empty_line (stepNoHeader s))

/-- All states of one full run of `BaseDoc.parse` on `lines`, starting from
`self.index = 0` followed by the initial `seek_to_next_non_empty_line`. -/
def parse_states (lines : List Line) : List DocState :=
  (⟨lines, 0⟩ : DocState) :: seek_to_next_non_empty_line ⟨lines, 0⟩ ::
    parse_trace (lines.length + 1) (seek_to_next_non_empty_line ⟨lines, 0⟩)

/-- The final state of one full run of `BaseDoc.parse` on `lines`. -/
def parse_docstring (lines : List Line) : DocState :=
  (parse_states lines).getLastD ⟨lines, 0⟩

/-- The literal `' :'` whose containment test guards the header split in both
`BaseDoc.parse_field` and `OrDefinitionItem.parse`. -/
def space_colon : Line := [' ', ':']

/-- Python `sub in s` for strings: some contiguous run of `s` equals `sub`. -/
def contains_sub (pat : Line) : Line → Bool
  | [] => pat.isEmpty
  | c :: rest => pat.isPrefixOf (c :: rest) || contains_sub pat rest

/-- The `\s?` tail of the split pattern: greedily consume one whitespace
character if present. -/
def split_ws_opt (l : Line) : Line :=
  match l with
  | c :: rest => if pySpace c then rest else l
  | [] => []

/-- `re.split('\s\:\s?', header, maxsplit=1)` from `BaseDoc.parse_field`: scan
for the first whitespace character followed by a colon, return the text before
the whitespace and the text after the colon with one further optional
whitespace character consumed.  `none` when the pattern never matches (the
callers only split when `' :' in header`, which guarantees a match).
The `header_regex` of `sectiondoc.items.regex` is not among the provided
sources; per the spec it splits the header on the same
one-word-then-` : `-then-classifiers pattern, so `OrDefinitionItem.parse`
below reuses this function for it. -/
def header_split : Line → Option (Line × Line)
  | [] => none
  | c :: rest =>
    if pySpace c && (match rest with | ':' :: _ => true | _ => false) then
      some ([], split_ws_opt rest.tail)
    else
      (header_split rest).map (fun p => (c :: p.1, p.2))

/-- Python `classifiers.split('or')`: split at every occurrence of the
two-character substring `or`, scanning left to right. -/
def split_or : Line → List Line
  | [] => [[]]
  | 'o' :: 'r' :: rest => [] :: split_or rest
  | c :: rest =>
    match split_or rest with
    | [] => [[c]]
    | h :: t => (c :: h) :: t

/-- The result record of `OrDefinitionItem.parse` (the `Item` it constructs):
a term, a list of classifiers and the definition lines. -/
structure Item where
  term : Line
  classifiers : List Line
  definition : List Line

/-- Modelled from the spec: `trim_indent` from `sectiondoc.util` is not among
the provided sources.  Per the spec the shared leading indentation of the
description lines - computed as the indentation of the first non-blank line -
is removed from the lines. -/
def trim_indent (lines : List Line) : List Line :=
  lines.map (fun l => l.drop (get_indent ((lines.dropWhile is_empty).headD [])).length)

/-- `OrDefinitionItem.parse(lines)`: strip the header, split it at `' :'` into
term and classifier text when present, split the classifier text at every
occurrence of `or`, strip the pieces, collapse `['']` to `[]`, and build the
`Item` with the trimmed definition lines.  `none` models the `IndexError` of
`lines[0]` on an empty list. -/
def or_item_parse (lines : List Line) : Option Item :=
  match lines with
  | [] => none
  | hd :: tl =>
    let header := strip hd
    let tc := if contains_sub space_colon header then (header_split header).getD (header, [])
              else (header, [])
    let cls0 := (split_or tc.2).map strip
    let cls := if cls0 = [[]] then [] else cls0
    let trimed := if 0 < tl.length then trim_indent tl else [[]]
    some ⟨strip tc.1, cls, trimed.map rstrip⟩

/-- `BaseDoc.parse_field(lines)`: the same header split, returning the name,
the type text and the description lines (the lines after the header,
trailing-whitespace-stripped when there are any, a single empty line
otherwise).  `none` models the `IndexError` of `lines[0]` on an empty list. -/
def parse_field (lines : List Line) : Option (Line × Line × List Line) :=
  match lines with
  | [] => none
  | hd :: tl =>
    let header := strip hd
    let p := if contains_sub space_colon header then (header_split header).getD (header, [])
             else (header, [])
    if 0 < tl.length then some (strip p.1, strip p.2, tl.map rstrip)
    else some (strip p.1, strip p.2, [[]])

/-- The regex character class `[\w.]`. -/
def dot_word (c : Char) : Bool := word_char c || c = '.'

/-- Acceptance of `\(.*\)` against a whole string: an opening parenthesis,
anything, a closing parenthesis. -/
def paren_form (l : Line) : Bool :=
  decide (2 ≤ l.length) && (l.headD ' ' == '(') && (l.getLastD ' ' == ')')

/-- Acceptance of the second alternative of `definition_regex`'s group,
`\s[\w.]+(\(.*\))?`, against the whole remaining text. -/
def alt_single (rest : Line) : Bool :=
  match rest with
  | c :: r =>
    pySpace c &&
    (!(r.takeWhile dot_word).isEmpty &&
      ((r.drop (r.takeWhile dot_word).length).isEmpty ||
        paren_form (r.drop (r.takeWhile dot_word).length)))
  | [] => false

/-- Acceptance of the third alternative of `definition_regex`'s group,
`\s[\w.]+(\(.*\))?\sor\s[\w.]+(\(.*\))?`, against the whole remaining text.
The optional parenthesis group before ` or ` can absorb arbitrary text, so
every split position is tried, as the backtracking regex engine does. -/
def alt_or (rest : Line) : Bool :=
  match rest with
  | c :: r =>
    pySpace c &&
    (!(r.takeWhile dot_word).isEmpty &&
      (List.range ((r.drop (r.takeWhile dot_word).length).length + 1)).any (fun i =>
        (((r.drop (r.takeWhile dot_word).length).take i).isEmpty ||
          paren_form ((r.drop (r.takeWhile dot_word).length).take i)) &&
        (match (r.drop (r.takeWhile dot_word).length).drop i with
         | a :: 'o' :: 'r' :: b :: q2 =>
            pySpace a && pySpace b &&
            (!(q2.takeWhile dot_word).isEmpty &&
              ((q2.drop (q2.takeWhile dot_word).length).isEmpty ||
                paren_form (q2.drop (q2.takeWhile dot_word).length)))
         | _ => false)))
  | [] => false

/-- `OrDefinitionItem.is_item(line)`: full-line acceptance of
`definition_regex`, i.e. `\*{0,2}\w+\s:` followed by nothing, a single
whitespace, one classifier (`alt_single`) or two classifiers joined by `or`
(`alt_or`). -/
def is_item (l : Line) : Bool :=
  decide ((l.takeWhile (fun c => c == '*')).length ≤ 2) &&
  (let rest := l.drop (l.takeWhile (fun c => c == '*')).length
   !(rest.takeWhile word_char).isEmpty &&
   (match rest.drop (rest.takeWhile word_char).length with
    | c :: ':' :: rest3 =>
       pySpace c &&
       (rest3.isEmpty ||
        (match rest3 with | [c2] => pySpace c2 | _ => false) ||
        alt_single rest3 || alt_or rest3)
    | _ => false))

-- ---------------------------------------------------------------------------
-- Theorems
-- ---------------------------------------------------------------------------

theorem getD_of_lt {α : Type} (l : List α) (i : Nat) (d : α) (h : i < l.length) :
    l.getD i d = l.get ⟨i, h⟩ := by
  induction l generalizing i with
  | nil => simp at h
  | cons a t ih =>
    cases i with
    | zero => rfl
    | succ n =>
      simp only [List.getD_cons_succ, List.get_cons_succ]
      exact ih n (Nat.lt_of_succ_lt_succ (by simpa using h))

theorem getD_of_ge {α : Type} (l : List α) (i : Nat) (d : α) (h : l.length ≤ i) :
    l.getD i d = d := by
  induction l generalizing i with
  | nil => cases i <;> rfl
  | cons a t ih =>
    cases i with
    | zero => simp at h
    | succ n =>
      simp only [List.getD_cons_succ]
      exact ih n (by simpa using h)

theorem headD_drop {α : Type} (l : List α) (i : Nat) (d : α) :
    (l.drop i).headD d = l.getD i d := by
  induction l generalizing i with
  | nil => cases i <;> rfl
  | cons a t ih =>
    cases i with
    | zero => rfl
    | succ n =>
      simp only [List.drop_succ_cons, List.getD_cons_succ]
      exact ih n

/-- C7. `read` called at or past the end of the buffer fails with `OutOfRange`
(`none`); otherwise it returns exactly the line at position `index`, advances
`index` by one, and leaves the buffer contents unchanged. -/
theorem readLine_spec (s : DocState) :
    (s.docstring.length ≤ s.index → readLine s = none) ∧
    (∀ h : s.index < s.docstring.length,
      readLine s = some (s.docstring.get ⟨s.index, h⟩,
        { docstring := s.docstring, index := s.index + 1 })) := by
  constructor
  · intro h
    simp [readLine, Nat.not_lt.mpr h]
  · intro h
    simp [readLine, h]

/-- Witness for C7 at a concrete buffer. -/
theorem readLine_spec_witness :
    readLine ⟨[['a'], ['b']], 0⟩ = some (['a'], ⟨[['a'], ['b']], 1⟩) ∧
    readLine ⟨[['a'], ['b']], 2⟩ = none := by
  refine ⟨?_, ?_⟩
  · exact (readLine_spec ⟨[['a'], ['b']], 0⟩).2 (by decide)
  · exact (readLine_spec ⟨[['a'], ['b']], 2⟩).1 (by decide)

/-- C8. `peek` is total: for any state and any non-negative offset it returns
the line at `index + offset` when that position is inside the buffer and the
empty-string sentinel when it is at or past the end; being a pure function of
the state, it changes neither the buffer nor the index. -/
theorem peek_total_spec (s : DocState) (ahead : Nat) :
    (∀ h : s.index + ahead < s.docstring.length,
        peek s ahead = s.docstring.get ⟨s.index + ahead, h⟩) ∧
    (s.docstring.length ≤ s.index + ahead → peek s ahead = []) := by
  constructor
  · intro h
    exact getD_of_lt _ _ _ h
  · intro h
    exact getD_of_ge _ _ _ h

/-- Witness for C8 at a concrete buffer: one in-range and one out-of-range offset. -/
theorem peek_total_spec_witness :
    peek ⟨[['a'], ['b']], 1⟩ 0 = ['b'] ∧ peek ⟨[['a'], ['b']], 1⟩ 5 = [] := by
  refine ⟨?_, ?_⟩
  · exact (peek_total_spec ⟨[['a'], ['b']], 1⟩ 0).1 (by decide)
  · exact (peek_total_spec ⟨[['a'], ['b']], 1⟩ 5).2 (by decide)

theorem sub_underline_length (mark : Char) (prev : Option Char) (l : Line) :
    (sub_underline mark prev l).length = l.length := by
  induction l generalizing prev with
  | nil => rfl
  | cons c rest ih => simp [sub_underline, ih]

theorem expected_underline_length (mark : Char) (l : Line) :
    (expected_underline mark l).length = l.length :=
  sub_underline_length mark none l

theorem is_section_eq_some (s : DocState) (h : Line) :
    is_section s = some h ↔
      (eol s = false ∧ single_token (peek s 1) = true ∧
       (rstrip (peek s 1) = expected_underline '-' (rstrip (peek s 0)) ∨
        rstrip (peek s 1) = expected_underline '=' (rstrip (peek s 0))) ∧
       h = strip (peek s 0)) := by
  by_cases he : eol s
  · simp [is_section, he]
  · by_cases hst : single_token (peek s 1)
    · by_cases hcmp : rstrip (peek s 1) = expected_underline '-' (rstrip (peek s 0)) ∨
          rstrip (peek s 1) = expected_underline '=' (rstrip (peek s 0))
      · simp only [is_section, he, if_false, hst, if_true, hcmp, Bool.not_eq_true] at *
        simp [he, hst, hcmp, eq_comm]
      · simp [is_section, he, hst, hcmp]
    · simp [is_section, he, hst]

/-- C3. `is_section` is a pure function of the state (it reads only through
`peek`, so buffer and index are left unchanged by construction); it returns
the stripped header text exactly when the underline line is a single
non-whitespace token whose trailing-whitespace-stripped form equals the
expected underline obtained from the (trailing-stripped) header by replacing
every letter, backslash and word-boundary-adjacent whitespace character with
`-`, or alternatively with `=`; in every other case (wrong character, underline
empty or multi-token) it reports "not a header".  In particular a successful
underline always has exactly the computed length, so an underline that is too
short or too long is rejected. -/
theorem is_section_spec (s : DocState) :
    (∀ h : Line, is_section s = some h ↔
      (eol s = false ∧ single_token (peek s 1) = true ∧
       (rstrip (peek s 1) = expected_underline '-' (rstrip (peek s 0)) ∨
        rstrip (peek s 1) = expected_underline '=' (rstrip (peek s 0))) ∧
       h = strip (peek s 0))) ∧
    (∀ h : Line, is_section s = some h →
      (rstrip (peek s 1)).length = (rstrip (peek s 0)).length) := by
  constructor
  · intro h
    exact is_section_eq_some s h
  · intro h hsome
    rcases (is_section_eq_some s h).mp hsome with ⟨-, -, hcmp, -⟩
    rcases hcmp with hc | hc <;>
      simp [hc, expected_underline_length]

/-- Witness for C3: the pair `Example` / `-------` is recognized, and the
underline has the header's length. -/
theorem is_section_spec_witness :
    is_section ⟨[("Example").data, ("-------").data], 0⟩ = some ("Example").data ∧
    (rstrip (peek ⟨[("Example").data, ("-------").data], 0⟩ 1)).length =
      (rstrip (peek ⟨[("Example").data, ("-------").data], 0⟩ 0)).length := by
  constructor
  · exact ((is_section_spec ⟨[("Example").data, ("-------").data], 0⟩).1 ("Example").data).mpr
      (by decide)
  · exact (is_section_spec ⟨[("Example").data, ("-------").data], 0⟩).2 ("Example").data
      (((is_section_spec ⟨[("Example").data, ("-------").data], 0⟩).1 ("Example").data).mpr
        (by decide))

theorem block_loop_spec (indent : Line) (d : List Line) :
    ∀ (n j : Nat) (acc : List Line), d.length - j ≤ n → j ≤ d.length →
      block_loop n indent ⟨d, j⟩ acc =
        (⟨d, j + (block_span indent (d.drop j)).length⟩,
         acc ++ block_span indent (d.drop j)) := by
  intro n
  induction n with
  | zero =>
    intro j acc hfuel hj
    have hj' : j = d.length := by omega
    subst hj'
    simp [block_loop, List.drop_length, block_span]
  | succ n ih =>
    intro j acc hfuel hj
    by_cases hlt : j < d.length
    · have heol : eol ⟨d, j⟩ = false := by
        simp [eol, Nat.not_le.mpr hlt]
      have hdrop : d.drop j = d.get ⟨j, hlt⟩ :: d.drop (j + 1) :=
        List.drop_eq_get_cons hlt
      have hp0 : peek ⟨d, j⟩ 0 = d.get ⟨j, hlt⟩ := by
        simpa [peek] using getD_of_lt d j [] hlt
      have hp1 : peek ⟨d, j⟩ 1 = (d.drop (j + 1)).headD [] := by
        simp [peek, headD_drop]
      have hread : readLine ⟨d, j⟩ = some (d.get ⟨j, hlt⟩, ⟨d, j + 1⟩) := by
        simp [readLine, hlt]
      rw [hdrop]
      show (if eol ⟨d, j⟩ then (⟨d, j⟩, acc)
        else
          if stop_blank indent (peek ⟨d, j⟩ 0) (peek ⟨d, j⟩ 1) then (⟨d, j⟩, acc)
          else if stop_dedent indent (peek ⟨d, j⟩ 0) then (⟨d, j⟩, acc)
          else
            match readLine ⟨d, j⟩ with
            | some (line, s1) => block_loop n indent s1 (acc ++ [rstrip line])
            | none => (⟨d, j⟩, acc)) = _
      rw [heol, hp0, hp1, hread]
      cases hc1 : stop_blank indent (d.get ⟨j, hlt⟩) ((d.drop (j + 1)).headD []) with
      | true =>
        simp only [block_span, hc1, Bool.false_eq_true, if_false, if_true]
        simp
      | false =>
        cases hc2 : stop_dedent indent (d.get ⟨j, hlt⟩) with
        | true =>
          simp only [block_span, hc1, hc2, Bool.false_eq_true, if_false, if_true]
          simp
        | false =>
          have hrec := ih (j + 1) (acc ++ [rstrip (d.get ⟨j, hlt⟩)]) (by omega) (by omega)
          simp only [block_span, hc1, hc2, Bool.false_eq_true, if_false, hrec]
          refine Prod.ext ?_ ?_
          · simp only [List.length_cons]
            congr 1
            omega
          · simp [List.append_assoc]
    · have hj' : j = d.length := by omega
      subst hj'
      have heol : eol ⟨d, d.length⟩ = true := by simp [eol]
      simp [block_loop, heol, List.drop_length, block_span]

/-- C2. For every buffer not at eol, `get_next_block` succeeds and returns the
block whose first element is the line at the starting cursor position,
unmodified, followed by exactly the lines consumed under the continuation rule
(`block_span` with the header's body indent, i.e. the header's own indent plus
one space), each with trailing whitespace stripped; afterwards the buffer
equals the old buffer with that whole span deleted and the index equals the
starting position. -/
theorem get_next_block_spec (s : DocState) (h : s.index < s.docstring.length) :
    get_next_block s =
      some (s.docstring.get ⟨s.index, h⟩ ::
              block_span (get_indent (s.docstring.get ⟨s.index, h⟩) ++ [' '])
                (s.docstring.drop (s.index + 1)),
            ⟨s.docstring.take s.index ++
               s.docstring.drop (s.index + 1 +
                 (block_span (get_indent (s.docstring.get ⟨s.index, h⟩) ++ [' '])
                   (s.docstring.drop (s.index + 1))).length),
             s.index⟩) := by
  obtain ⟨d, i⟩ := s
  simp only at h
  have hread : readLine ⟨d, i⟩ = some (d.get ⟨i, h⟩, ⟨d, i + 1⟩) := by
    simp [readLine, h]
  have hloop := block_loop_spec (get_indent (d.get ⟨i, h⟩) ++ [' ']) d
    (d.length - (i + 1)) (i + 1) [d.get ⟨i, h⟩] (le_refl _) (by omega)
  simp only [get_next_block, hread, hloop, remove_lines]
  simp only [List.singleton_append, List.length_cons]
  have harith : i + ((block_span (get_indent (d.get ⟨i, h⟩) ++ [' '])
      (List.drop (i + 1) d)).length + 1)
      = i + 1 + (block_span (get_indent (d.get ⟨i, h⟩) ++ [' '])
      (List.drop (i + 1) d)).length := by omega
  rw [harith]

/-- Witness for C2: a two-line field followed by a second field; the block is
extracted, the span removed, and the cursor reset to the start. -/
theorem get_next_block_spec_witness :
    get_next_block ⟨[("foo : int").data, ("    desc  ").data, ("bar : str").data], 0⟩ =
      some ([("foo : int").data, ("    desc").data],
            ⟨[("bar : str").data], 0⟩) :=
  (get_next_block_spec
    ⟨[("foo : int").data, ("    desc  ").data, ("bar : str").data], 0⟩
    (by decide)).trans rfl

theorem remove_lines_index (s : DocState) (a c : Nat) :
    (remove_lines s a c).index = s.index := rfl

theorem remove_lines_length (s : DocState) (a c : Nat) :
    (remove_lines s a c).docstring.length =
      min a s.docstring.length + (s.docstring.length - (a + c)) := by
  simp [remove_lines]

theorem pyInsert_length (l : List Line) (i : Nat) (x : Line) :
    (pyInsert l i x).length = l.length + 1 := by
  simp only [pyInsert, List.length_append, List.length_take, List.length_cons,
    List.length_drop]
  omega

theorem foldl_pyInsert_length (ls : List Line) (d : List Line) (i : Nat) :
    (ls.foldl (fun d line => pyInsert d i line) d).length = d.length + ls.length := by
  induction ls generalizing d with
  | nil => rfl
  | cons a t ih =>
    simp only [List.foldl_cons, ih, pyInsert_length, List.length_cons]
    omega

theorem insert_lines_index (s : DocState) (ls : List Line) (i : Nat) :
    (insert_lines s ls i).index = s.index := rfl

theorem takeWhile_length_le {α : Type} (p : α → Bool) (l : List α) :
    (l.takeWhile p).length ≤ l.length := by
  induction l with
  | nil => simp
  | cons a t ih =>
    rw [List.takeWhile_cons]
    split
    · simp only [List.length_cons]
      omega
    · simp

theorem insert_lines_length (s : DocState) (ls : List Line) (i : Nat) :
    (insert_lines s ls i).docstring.length = s.docstring.length + ls.length := by
  show (ls.reverse.foldl (fun d line => pyInsert d i line) s.docstring).length = _
  rw [foldl_pyInsert_length]
  simp

theorem seek_docstring (s : DocState) :
    (seek_to_next_non_empty_line s).docstring = s.docstring := rfl

theorem seek_index_ge (s : DocState) :
    s.index ≤ (seek_to_next_non_empty_line s).index := by
  simp [seek_to_next_non_empty_line]

theorem seek_index_le (s : DocState) (h : s.index ≤ s.docstring.length) :
    (seek_to_next_non_empty_line s).index ≤ s.docstring.length := by
  have hw : ((s.docstring.drop s.index).takeWhile is_empty).length ≤
      (s.docstring.drop s.index).length := takeWhile_length_le _ _
  simp only [seek_to_next_non_empty_line, List.length_drop] at *
  omega

theorem is_section_index_lt (s : DocState) (h : Line) (hs : is_section s = some h) :
    s.index + 1 < s.docstring.length := by
  rcases (is_section_eq_some s h).mp hs with ⟨he, hst, -, -⟩
  have hlt : s.index < s.docstring.length := by
    simpa [eol, decide_eq_false_iff_not, Nat.not_le] using he
  by_contra hge
  have hnil : peek s 1 = [] := getD_of_ge _ _ _ (by omega)
  rw [hnil] at hst
  exact absurd hst (by decide)

theorem header_steps_facts (s : DocState) (h : Line)
    (hlt : s.index + 1 < s.docstring.length) :
    (stepA s).index = s.index ∧ (stepB s).index = s.index ∧
    (stepC s h).index = s.index ∧ (stepD s h).index = s.index + 2 ∧
    s.index + 2 ≤ (stepA s).docstring.length ∧
    (stepA s).docstring.length ≤ s.docstring.length ∧
    (stepB s).docstring.length = (stepA s).docstring.length - 2 ∧
    (stepC s h).docstring.length = (stepA s).docstring.length ∧
    (stepD s h).docstring.length = (stepA s).docstring.length := by
  have hAi : (stepA s).index = s.index := by
    unfold stepA
    split <;> rfl
  have hAlen : s.index + 2 ≤ (stepA s).docstring.length ∧
      (stepA s).docstring.length ≤ s.docstring.length := by
    unfold stepA
    split
    · rw [remove_lines_length]
      omega
    · omega
  have hBi : (stepB s).index = s.index := by
    rw [stepB, remove_lines_index, hAi]
  have hBlen : (stepB s).docstring.length = (stepA s).docstring.length - 2 := by
    rw [stepB, remove_lines_length, hAi]
    omega
  have hdl : (header_descriptions (stepA s) h).length = 2 := rfl
  have hCi : (stepC s h).index = s.index := by
    rw [stepC, insert_lines_index, hBi]
  have hClen : (stepC s h).docstring.length = (stepA s).docstring.length := by
    rw [stepC, insert_lines_length, hBlen, hdl]
    omega
  have hDi : (stepD s h).index = s.index + 2 := by
    rw [stepD]
    simp only [hCi, hdl]
  have hDlen : (stepD s h).docstring.length = (stepA s).docstring.length := by
    rw [stepD]
    exact hClen
  exact ⟨hAi, hBi, hCi, hDi, hAlen.1, hAlen.2, hBlen, hClen, hDlen⟩

theorem not_eol_lt (s : DocState) (he : ¬ eol s = true) :
    s.index < s.docstring.length := by
  simpa [eol, Nat.not_le] using he

theorem parse_trace_inv (n : Nat) :
    ∀ s : DocState, s.index ≤ s.docstring.length →
      ∀ t ∈ parse_trace n s, t.index ≤ t.docstring.length := by
  induction n with
  | zero =>
    intro s _ t ht
    simp [parse_trace] at ht
  | succ n ih =>
    intro s hs t ht
    by_cases he : eol s
    · simp [parse_trace, he] at ht
    · have hlt : s.index < s.docstring.length := not_eol_lt s he
      have he' : eol s = false := by simpa using he
      rw [parse_trace, he'] at ht
      simp only [Bool.false_eq_true, if_false] at ht
      cases his : is_section s with
      | some hdr =>
        rw [his] at ht
        have hlt1 := is_section_index_lt s hdr his
        obtain ⟨hAi, hBi, hCi, hDi, hA1, hA2, hB, hC, hD⟩ :=
          header_steps_facts s hdr hlt1
        simp only [List.mem_cons] at ht
        rcases ht with rfl | rfl | rfl | rfl | ht
        · omega
        · omega
        · omega
        · omega
        · exact ih (stepD s hdr) (by omega) t ht
      | none =>
        rw [his] at ht
        simp only [List.mem_cons] at ht
        have h1 : (stepNoHeader s).index = s.index + 1 := rfl
        have h1d : (stepNoHeader s).docstring = s.docstring := rfl
        have h2 := seek_index_le (stepNoHeader s) (by rw [h1, h1d]; omega)
        have h2d := seek_docstring (stepNoHeader s)
        rcases ht with rfl | rfl | ht
        · rw [h1, h1d]
          omega
        · rw [h2d, h1d] at *
          omega
        · refine ih (seek_to_next_non_empty_line (stepNoHeader s)) ?_ t ht
          rw [h2d, h1d]
          exact h2

theorem parse_trace_complete (n : Nat) :
    ∀ s : DocState, s.docstring.length - s.index ≤ n →
      s.index ≤ s.docstring.length →
      (((parse_trace n s).getLastD s).index =
        ((parse_trace n s).getLastD s).docstring.length) := by
  induction n with
  | zero =>
    intro s hfuel hinv
    simp only [parse_trace, List.getLastD]
    omega
  | succ n ih =>
    intro s hfuel hinv
    by_cases he : eol s
    · have : s.docstring.length ≤ s.index := by simpa [eol] using he
      simp only [parse_trace, he, if_true, List.getLastD]
      omega
    · have hlt : s.index < s.docstring.length := not_eol_lt s he
      have he' : eol s = false := by simpa using he
      rw [parse_trace, he']
      simp only [Bool.false_eq_true, if_false]
      cases his : is_section s with
      | some hdr =>
        have hlt1 := is_section_index_lt s hdr his
        obtain ⟨hAi, hBi, hCi, hDi, hA1, hA2, hB, hC, hD⟩ :=
          header_steps_facts s hdr hlt1
        simp only [List.getLastD_cons]
        exact ih (stepD s hdr) (by omega) (by omega)
      | none =>
        have h1 : (stepNoHeader s).index = s.index + 1 := rfl
        have h1d : (stepNoHeader s).docstring = s.docstring := rfl
        have h2 := seek_index_le (stepNoHeader s) (by rw [h1, h1d]; omega)
        have h2g := seek_index_ge (stepNoHeader s)
        have h2d := seek_docstring (stepNoHeader s)
        simp only [List.getLastD_cons]
        refine ih (seek_to_next_non_empty_line (stepNoHeader s)) ?_ ?_
        · rw [h2d, h1d]
          rw [h1, h1d] at *
          omega
        · rw [h2d, h1d]
          exact h2

theorem block_span_length_le (indent : Line) (l : List Line) :
    (block_span indent l).length ≤ l.length := by
  induction l with
  | nil => simp [block_span]
  | cons x rest ih =>
    rw [block_span]
    split
    · simp
    · split
      · simp
      · simp only [List.length_cons]
        omega

theorem getLastD_eq_or_mem {α : Type} (l : List α) (d : α) :
    l.getLastD d = d ∨ l.getLastD d ∈ l := by
  induction l generalizing d with
  | nil => exact Or.inl rfl
  | cons a t ih =>
    rw [List.getLastD_cons]
    rcases ih a with hd | hm
    · rw [hd]
      exact Or.inr (List.mem_cons_self a t)
    · exact Or.inr (List.mem_cons_of_mem a hm)

/-- C1. In a full parse run started at `index = 0` (default header table, so
recognized sections are rewritten by `_refactor_header`), the cursor invariant
`index ≤ length(docstring)` (with `0 ≤ index` holding by the type) is true
before and after every operation performed — initial seek, `is_section`
probes, the blank-line `remove_lines`, the header `remove_lines`,
`insert_lines`, the cursor advance — as recorded in `parse_states`; the run
ends in the state with `index = length`, so `index = length` is the only
end-of-input configuration reached; and the remaining buffer operation
`get_next_block` also preserves the invariant whenever it runs. -/
theorem parse_cursor_invariant (lines : List Line) :
    (∀ t ∈ parse_states lines, t.index ≤ t.docstring.length) ∧
    (parse_docstring lines).index = (parse_docstring lines).docstring.length ∧
    (∀ s : DocState, s.index < s.docstring.length →
      ∀ blk s2, get_next_block s = some (blk, s2) → s2.index ≤ s2.docstring.length) := by
  have hseek0 := seek_index_le (⟨lines, 0⟩ : DocState) (by simp)
  refine ⟨?_, ?_, ?_⟩
  · intro t ht
    rw [parse_states] at ht
    simp only [List.mem_cons] at ht
    rcases ht with rfl | rfl | ht
    · simp
    · exact hseek0
    · exact parse_trace_inv (lines.length + 1)
        (seek_to_next_non_empty_line ⟨lines, 0⟩) hseek0 t ht
  · rw [parse_docstring, parse_states]
    simp only [List.getLastD_cons]
    refine parse_trace_complete (lines.length + 1)
      (seek_to_next_non_empty_line ⟨lines, 0⟩) ?_ hseek0
    show lines.length - (seek_to_next_non_empty_line ⟨lines, 0⟩).index ≤ lines.length + 1
    omega
  · intro s hlt blk s2 hgnb
    rw [get_next_block_spec s hlt] at hgnb
    simp only [Option.some.injEq, Prod.mk.injEq] at hgnb
    obtain ⟨-, hs2⟩ := hgnb
    rw [← hs2]
    have hspan := block_span_length_le
      (get_indent (s.docstring.get ⟨s.index, hlt⟩) ++ [' '])
      (s.docstring.drop (s.index + 1))
    simp only [List.length_append, List.length_take, List.length_drop] at *
    omega

/-- Witness for C1: a full run on a two-line section docstring ends with
`index = length`, and `get_next_block` applied at a concrete one-field buffer
lands in a state satisfying the invariant. -/
theorem parse_cursor_invariant_witness :
    (parse_docstring [("Intro").data, ("-----").data]).index =
      (parse_docstring [("Intro").data, ("-----").data]).docstring.length ∧
    ((⟨[], 0⟩ : DocState).index ≤ (⟨[], 0⟩ : DocState).docstring.length) := by
  refine ⟨(parse_cursor_invariant [("Intro").data, ("-----").data]).2.1, ?_⟩
  exact (parse_cursor_invariant [("Intro").data, ("-----").data]).2.2
    ⟨[("x : y").data], 0⟩ (by decide) [("x : y").data] ⟨[], 0⟩ rfl

theorem parse_trace_none_docstring (n : Nat) :
    ∀ (lines : List Line) (j : Nat),
      (∀ i, i < lines.length → is_section ⟨lines, i⟩ = none) →
      ∀ t ∈ parse_trace n ⟨lines, j⟩, t.docstring = lines := by
  induction n with
  | zero =>
    intro lines j _ t ht
    simp [parse_trace] at ht
  | succ n ih =>
    intro lines j hyp t ht
    by_cases he : eol (⟨lines, j⟩ : DocState)
    · simp [parse_trace, he] at ht
    · have hlt : j < lines.length := not_eol_lt ⟨lines, j⟩ he
      have he' : eol (⟨lines, j⟩ : DocState) = false := by simpa using he
      have his : is_section ⟨lines, j⟩ = none := hyp j hlt
      rw [parse_trace, he', his] at ht
      simp only [Bool.false_eq_true, if_false, List.mem_cons] at ht
      have hseq : seek_to_next_non_empty_line (stepNoHeader ⟨lines, j⟩) =
          ⟨lines, (j + 1) + ((lines.drop (j + 1)).takeWhile is_empty).length⟩ := rfl
      rcases ht with rfl | rfl | ht
      · rfl
      · rfl
      · rw [hseq] at ht
        exact ih lines _ hyp t ht

/-- C9. For every list of lines on which `is_section` recognizes no header at
any cursor position (the shape of already-transformed output), a full parse
run leaves the buffer exactly equal to its input, so the transformation is a
no-op, and in particular is idempotent on any output that contains no
further recognizable headers. -/
theorem parse_no_headers_id (lines : List Line)
    (hyp : ∀ i, i < lines.length → is_section ⟨lines, i⟩ = none) :
    (parse_docstring lines).docstring = lines := by
  rw [parse_docstring, parse_states]
  simp only [List.getLastD_cons]
  have hs1 : seek_to_next_non_empty_line (⟨lines, 0⟩ : DocState) =
      ⟨lines, 0 + ((lines.drop 0).takeWhile is_empty).length⟩ := rfl
  rw [hs1]
  rcases getLastD_eq_or_mem
      (parse_trace (lines.length + 1)
        (⟨lines, 0 + ((lines.drop 0).takeWhile is_empty).length⟩ : DocState))
      (⟨lines, 0 + ((lines.drop 0).takeWhile is_empty).length⟩ : DocState) with hd | hm
  · rw [hd]
  · exact parse_trace_none_docstring (lines.length + 1) lines _ hyp _ hm

/-- Witness for C9: a concrete two-line docstring with no recognizable header
pair survives a full run unchanged. -/
theorem parse_no_headers_id_witness :
    (parse_docstring [("hello").data, ("world").data]).docstring =
      [("hello").data, ("world").data] :=
  parse_no_headers_id [("hello").data, ("world").data] (by decide)

theorem dropWhile_length_le {α : Type} (p : α → Bool) (l : List α) :
    (l.dropWhile p).length ≤ l.length := by
  induction l with
  | nil => simp
  | cons a t ih =>
    rw [List.dropWhile_cons]
    split
    · simp only [List.length_cons]
      omega
    · simp

theorem dropWhile_idem {α : Type} (p : α → Bool) (l : List α) :
    (l.dropWhile p).dropWhile p = l.dropWhile p := by
  induction l with
  | nil => rfl
  | cons a t ih =>
    rw [List.dropWhile_cons]
    split
    · exact ih
    · rw [List.dropWhile_cons]
      simp_all

theorem dropWhile_eq_self_of_all {α : Type} (p : α → Bool) (l : List α)
    (h : ∀ c ∈ l, p c = false) : l.dropWhile p = l := by
  cases l with
  | nil => rfl
  | cons a t =>
    exact List.dropWhile_cons_of_neg (by simp [h a (List.mem_cons_self a t)])

theorem dropWhile_fixed_head {α : Type} (p : α → Bool) (c : α) (t : List α)
    (h : (c :: t).dropWhile p = c :: t) : p c = false := by
  by_contra hc
  have hc' : p c = true := by
    cases hpc : p c
    · exact absurd hpc hc
    · rfl
  rw [List.dropWhile_cons_of_pos hc'] at h
  have := dropWhile_length_le p t
  have := congrArg List.length h
  simp only [List.length_cons] at this
  omega

theorem rstrip_idem (l : Line) : rstrip (rstrip l) = rstrip l := by
  unfold rstrip
  rw [List.reverse_reverse, dropWhile_idem]

theorem rstrip_eq_self_iff (l : Line) :
    rstrip l = l ↔ l.reverse.dropWhile pySpace = l.reverse := by
  unfold rstrip
  exact List.reverse_eq_iff

theorem rstrip_append_right (a p : Line) (hp : rstrip p = p) (hne : p ≠ []) :
    rstrip (a ++ p) = a ++ p := by
  have hdw : p.reverse.dropWhile pySpace = p.reverse := (rstrip_eq_self_iff p).mp hp
  obtain ⟨c, t, hct⟩ : ∃ c t, p.reverse = c :: t := by
    cases hrev : p.reverse with
    | nil =>
      exact absurd (by simpa using hrev) hne
    | cons c t => exact ⟨c, t, rfl⟩
  rw [hct] at hdw
  have hc : pySpace c = false := dropWhile_fixed_head pySpace c t hdw
  have hpe : p = t.reverse ++ [c] := by
    rw [← List.reverse_reverse p, hct]
    simp
  rw [rstrip_eq_self_iff]
  rw [List.reverse_append, hct, List.cons_append,
    List.dropWhile_cons_of_neg (by simp [hc])]

theorem strip_of_no_space (l : Line) (h : ∀ c ∈ l, pySpace c = false) :
    strip l = l := by
  have h1 : rstrip l = l := by
    rw [rstrip_eq_self_iff]
    exact dropWhile_eq_self_of_all pySpace l.reverse
      (fun c hc => h c (by simpa using hc))
  unfold strip lstrip
  rw [h1]
  exact dropWhile_eq_self_of_all pySpace l h

theorem strip_idem (l : Line) : strip (strip l) = strip l := by
  have hz : rstrip (rstrip l) = rstrip l := rstrip_idem l
  have hry : rstrip (lstrip (rstrip l)) = lstrip (rstrip l) := by
    by_cases hy : lstrip (rstrip l) = []
    · rw [hy]
      rfl
    · obtain ⟨c, t, hct⟩ : ∃ c t, (lstrip (rstrip l)).reverse = c :: t := by
        cases hrev : (lstrip (rstrip l)).reverse with
        | nil => exact absurd (by simpa using hrev) hy
        | cons c t => exact ⟨c, t, rfl⟩
      have hzrev : (rstrip l).reverse =
          c :: (t ++ ((rstrip l).takeWhile pySpace).reverse) := by
        conv_lhs => rw [← List.takeWhile_append_dropWhile (p := pySpace) (l := rstrip l)]
        rw [List.reverse_append]
        rw [show (rstrip l).dropWhile pySpace = lstrip (rstrip l) from rfl, hct,
          List.cons_append]
      have hzdw : (rstrip l).reverse.dropWhile pySpace = (rstrip l).reverse :=
        (rstrip_eq_self_iff (rstrip l)).mp hz
      rw [hzrev] at hzdw
      have hc : pySpace c = false := dropWhile_fixed_head pySpace c _ hzdw
      rw [rstrip_eq_self_iff, hct, List.dropWhile_cons_of_neg (by simp [hc])]
  show lstrip (rstrip (lstrip (rstrip l))) = lstrip (rstrip l)
  rw [hry]
  exact dropWhile_idem pySpace (rstrip l)

theorem isPrefixOf_append_self (pat x : Line) : pat.isPrefixOf (pat ++ x) = true := by
  induction pat with
  | nil => simp [List.isPrefixOf]
  | cons a t ih =>
    simp only [List.cons_append, List.isPrefixOf, ih, Bool.and_true]
    simp

theorem contains_sub_marker (t rest : Line) :
    contains_sub space_colon (t ++ ' ' :: ':' :: rest) = true := by
  induction t with
  | nil =>
    show (space_colon.isPrefixOf (space_colon ++ rest) ||
      contains_sub space_colon (':' :: rest)) = true
    rw [isPrefixOf_append_self]
    simp
  | cons c t0 ih =>
    show (space_colon.isPrefixOf (c :: (t0 ++ ' ' :: ':' :: rest)) ||
      contains_sub space_colon (t0 ++ ' ' :: ':' :: rest)) = true
    rw [ih]
    simp

theorem split_ws_opt_space (p : Line) : split_ws_opt (' ' :: p) = p := rfl

theorem header_split_marker (t rest : Line) (ht : ∀ c ∈ t, pySpace c = false) :
    header_split (t ++ ' ' :: ':' :: rest) = some (t, split_ws_opt rest) := by
  induction t with
  | nil => rfl
  | cons c t0 ih =>
    have hc : pySpace c = false := ht c (List.mem_cons_self c t0)
    have ih' := ih (fun x hx => ht x (List.mem_cons_of_mem c hx))
    show (if pySpace c &&
        (match t0 ++ ' ' :: ':' :: rest with | ':' :: _ => true | _ => false) then
        some ([], split_ws_opt (t0 ++ ' ' :: ':' :: rest).tail)
      else
        (header_split (t0 ++ ' ' :: ':' :: rest)).map (fun p => (c :: p.1, p.2))) =
      some (c :: t0, split_ws_opt rest)
    rw [hc]
    simp only [Bool.false_and, Bool.false_eq_true, if_false, ih']
    rfl

/-- C4 (divergence exhibit). The line `x : torch.Tensor` is accepted by the
item grammar's own `definition_regex` (`is_item` is true: one single
classifier, no standalone word `or`), yet `OrDefinitionItem.parse` splits its
classifier phrase at every occurrence of the SUBSTRING `or` - inside the words
`torch` and `Tensor` - producing the three classifiers `t`, `ch.Tens` and the
empty string instead of the single classifier `torch.Tensor`. -/
theorem or_item_parse_splits_inside_word :
    is_item (("x : torch.Tensor").data) = true ∧
    or_item_parse [("x : torch.Tensor").data] =
      some ⟨("x").data, [("t").data, ("ch.Tens").data, []], [[]]⟩ :=
  ⟨rfl, rfl⟩

/-- C5 (counterexample). Parsing the header `value : int or float or str`,
which has a third classifier segment after a second `or`, does NOT fail with
`MalformedItem`: it succeeds and returns an item with the three classifiers. -/
theorem or_item_parse_three_classifiers_no_error :
    or_item_parse [("value : int or float or str").data] =
      some ⟨("value").data, [("int").data, ("float").data, ("str").data], [[]]⟩ :=
  rfl

/-- C5 (amended). For every field header of the form `term : c1 or c2 or c3`
(the classifier phrase splitting at `or` into three segments), parsing does
not fail: it returns an item whose classifiers are exactly the three
segments, individually stripped; no `MalformedItem` error exists in the
code. -/
theorem or_item_parse_three_classifiers (t p p1 p2 p3 : Line)
    (ht1 : t ≠ []) (ht2 : ∀ c ∈ t, pySpace c = false)
    (hp1 : p ≠ []) (hp2 : rstrip p = p)
    (hsplit : split_or p = [p1, p2, p3]) :
    or_item_parse [t ++ ' ' :: ':' :: ' ' :: p] =
      some ⟨t, [strip p1, strip p2, strip p3], [[]]⟩ := by
  obtain ⟨c, t0, rfl⟩ := List.exists_cons_of_ne_nil ht1
  have hc0 : pySpace c = false := ht2 c (List.mem_cons_self c t0)
  have hassoc : (c :: t0) ++ ' ' :: ':' :: ' ' :: p =
      ((c :: t0) ++ [' ', ':', ' ']) ++ p := by simp
  have hrst : rstrip ((c :: t0) ++ ' ' :: ':' :: ' ' :: p) =
      (c :: t0) ++ ' ' :: ':' :: ' ' :: p := by
    rw [hassoc]
    exact rstrip_append_right _ p hp2 hp1
  have hstr : strip ((c :: t0) ++ ' ' :: ':' :: ' ' :: p) =
      (c :: t0) ++ ' ' :: ':' :: ' ' :: p := by
    unfold strip lstrip
    rw [hrst, List.cons_append]
    exact List.dropWhile_cons_of_neg (by simp [hc0])
  have hcontains : contains_sub space_colon ((c :: t0) ++ ' ' :: ':' :: ' ' :: p) = true :=
    contains_sub_marker (c :: t0) (' ' :: p)
  have hsplit_hdr : header_split ((c :: t0) ++ ' ' :: ':' :: ' ' :: p) =
      some (c :: t0, p) := by
    rw [header_split_marker (c :: t0) (' ' :: p) ht2, split_ws_opt_space]
  have hterm : strip (c :: t0) = c :: t0 := strip_of_no_space (c :: t0) ht2
  simp only [or_item_parse, hstr, hcontains, if_true, hsplit_hdr, Option.getD_some,
    hsplit, hterm]
  have hne : ¬ ([strip p1, strip p2, strip p3] = ([[]] : List Line)) := by simp
  simp [hne]
  rfl

/-- Witness for C5 (amended) at a concrete three-classifier header. -/
theorem or_item_parse_three_classifiers_witness :
    or_item_parse [("val").data ++ ' ' :: ':' :: ' ' :: ("a or b or c").data] =
      some ⟨("val").data, [("a").data, ("b").data, ("c").data], [[]]⟩ :=
  (or_item_parse_three_classifiers ("val").data ("a or b or c").data
    ("a ").data (" b ").data (" c").data
    (by decide) (by decide) (by decide) (by decide) (by decide)).trans rfl

/-- C6. For every block whose header contains no `' :'` substring, the item
parser returns the whole stripped header as the term and an empty classifier
list; in particular the header `Returns or` yields the term `Returns or` and
no classifiers, with no splitting at the word `or`. -/
theorem or_item_parse_no_colon_term (hd : Line) (tl : List Line)
    (hcol : contains_sub space_colon (strip hd) = false) :
    (∃ d, or_item_parse (hd :: tl) = some ⟨strip hd, [], d⟩) ∧
    or_item_parse [("Returns or").data] =
      some ⟨("Returns or").data, [], [[]]⟩ := by
  constructor
  · refine ⟨(if 0 < tl.length then trim_indent tl else [[]]).map rstrip, ?_⟩
    simp only [or_item_parse, hcol, Bool.false_eq_true, if_false]
    simp only [split_or, List.map_cons, List.map_nil]
    have hsn : strip ([] : Line) = [] := rfl
    rw [hsn]
    simp [strip_idem]
  · rfl

/-- Witness for C6 at the header `Returns or` itself. -/
theorem or_item_parse_no_colon_term_witness :
    ∃ d, or_item_parse [("Returns or").data] =
      some ⟨("Returns or").data, [], d⟩ :=
  (or_item_parse_no_colon_term ("Returns or").data [] (by decide)).1

/-- C10. For every block whose (stripped) header contains a colon but no
space-colon pair `' :'` - i.e. no colon preceded by a space, as in `x: int` -
the split test fails, so both `BaseDoc.parse_field` and
`OrDefinitionItem.parse` treat the entire header, colon included, as the term
and return no type/classifiers; only a colon preceded by a space introduces
them. -/
theorem parse_field_unspaced_colon (hd : Line) (tl : List Line)
    (hcol : contains_sub space_colon (strip hd) = false)
    (hc : ':' ∈ strip hd) :
    (∃ d, parse_field (hd :: tl) = some (strip hd, [], d)) ∧
    (∃ d, or_item_parse (hd :: tl) = some ⟨strip hd, [], d⟩) := by
  constructor
  · refine ⟨if 0 < tl.length then tl.map rstrip else [[]], ?_⟩
    simp only [parse_field, hcol, Bool.false_eq_true, if_false]
    have hse : strip ([] : Line) = [] := rfl
    split <;> simp [strip_idem, hse]
  · refine ⟨(if 0 < tl.length then trim_indent tl else [[]]).map rstrip, ?_⟩
    simp only [or_item_parse, hcol, Bool.false_eq_true, if_false]
    simp only [split_or, List.map_cons, List.map_nil]
    have hsn : strip ([] : Line) = [] := rfl
    rw [hsn]
    simp [strip_idem]

/-- Witness for C10 at the header `x: int`. -/
theorem parse_field_unspaced_colon_witness :
    (∃ d, parse_field [("x: int").data] = some (("x: int").data, [], d)) ∧
    (∃ d, or_item_parse [("x: int").data] = some ⟨("x: int").data, [], d⟩) :=
  parse_field_unspaced_colon ("x: int").data [] (by decide) (by decide)
